import Mathlib

/-!
Verification of the keeper note-store engine.

The definitions below are a shallow embedding of the storage engine of the
keeper repository:

* `containsUrl`, `extractUrls`, `cleanUrl` embed `url-detect.ts`
  (the revision that strips trailing punctuation from extracted URLs);
  the regex `https?://\S+` is embedded as an explicit left-to-right scanner.
* `prepareFts5Query` embeds the FTS5 query normalizer of `db-impl.ts`.
* `DBState` models the SQLite database after `SCHEMA_SQL` ran: the four
  tables `notes`, `tags`, `note_tags`, `media`, plus the AUTOINCREMENT
  sequence for tag ids.  Rows are kept in insertion (rowid) order.
* `createNote`, `getNote`, `getAllNotes`, `updateNote`, `deleteNote`,
  `deleteNotes`, `addTag`, `removeTag`, `renameTag`, `getAllTags`, `search`
  embed the engine operations of `db-impl.ts` statement by statement;
  SQLite semantics (UNIQUE constraint, INSERT OR IGNORE, ON DELETE CASCADE,
  ORDER BY) are made explicit.  The injected `generateId`/`now` callbacks
  become explicit arguments.
-/

deriving instance DecidableEq for Except

/-- Whitespace class used by the JS regexes `\s`/`\S` and by `trim`
(restricted to the ASCII whitespace characters). -/
def isWsChar (c : Char) : Bool :=
  c = ' ' || c = '\t' || c = '\n' || c = '\r' || c = '\x0b' || c = '\x0c'

-- ── url-detect.ts ────────────────────────────────────────────────

/-- Trailing-punctuation class of `cleanUrl` in `url-detect.ts`:
the character class of the regex stripping `. , ; : ! ? ) > ] ' "`. -/
def isPunct (c : Char) : Bool :=
  c = '.' || c = ',' || c = ';' || c = ':' || c = '!' || c = '?' ||
  c = ')' || c = '>' || c = ']' || c = '\'' || c = '"'

/-- Characters of the literal scheme `http://`. -/
def schemeHttp : List Char := ['h', 't', 't', 'p', ':', '/', '/']

/-- Characters of the literal scheme `https://`. -/
def schemeHttps : List Char := ['h', 't', 't', 'p', 's', ':', '/', '/']

/-- Splits off a leading `https://` or `http://` (the regex alternative
`https?:\/\/` anchored at the current position), returning the scheme and
the remainder. -/
def schemeSplit? (l : List Char) : Option (List Char × List Char) :=
  match l with
  | 'h' :: 't' :: 't' :: 'p' :: 's' :: ':' :: '/' :: '/' :: rest =>
      some (schemeHttps, rest)
  | 'h' :: 't' :: 't' :: 'p' :: ':' :: '/' :: '/' :: rest =>
      some (schemeHttp, rest)
  | _ => none

/-- Attempts to match the regex `https?:\/\/\S+` at the head of `l`.
On success returns the (greedy) match and the rest of the input after it. -/
def tryUrl (l : List Char) : Option (List Char × List Char) :=
  match schemeSplit? l with
  | none => none
  | some (sch, rest) =>
      let body := rest.takeWhile (fun c => !(isWsChar c))
      if body.isEmpty then none
      else some (sch ++ body, rest.drop body.length)

/-- Fuel-indexed left-to-right scan collecting every non-overlapping match
of `https?:\/\/\S+`, as `String.prototype.match` with the `g` flag does. -/
def scanUrlsGo : Nat → List Char → List (List Char)
  | 0, _ => []
  | _, [] => []
  | Nat.succ fuel, c :: rest =>
      match tryUrl (c :: rest) with
      | some (m, rest') => m :: scanUrlsGo fuel rest'
      | none => scanUrlsGo fuel rest

/-- Every match of `https?:\/\/\S+` in `l`, in order of first appearance. -/
def scanUrls (l : List Char) : List (List Char) :=
  scanUrlsGo l.length l

/-- Embeds `cleanUrl` of `url-detect.ts`: strip the maximal trailing run of
punctuation characters (`replace(/[.,;:!?)>\]'"]+$/, '')`). -/
def cleanUrl (l : List Char) : List Char :=
  ((l.reverse).dropWhile isPunct).reverse

/-- Embeds `containsUrl` of `url-detect.ts`: `URL_RE.test(text)` for the
regex `https?:\/\/\S+` (with the null/empty-input guard). -/
def containsUrlCore : List Char → Bool
  | [] => false
  | c :: rest => (tryUrl (c :: rest)).isSome || containsUrlCore rest

/-- Embeds `containsUrl(text)` for a non-null input string. -/
def containsUrl (t : String) : Bool :=
  if t = "" then false else containsUrlCore t.toList

/-- Embeds `extractUrls` of `url-detect.ts` (revision with `cleanUrl`):
collect every regex match, then strip trailing punctuation from each. -/
def extractUrls (t : String) : List String :=
  if t = "" then []
  else (scanUrls t.toList).map (fun m => String.mk (cleanUrl m))

-- ── prepareFts5Query (db-impl.ts) ────────────────────────────────

/-- Embeds `trimmed = input.trim()`. -/
def trimChars (l : List Char) : List Char :=
  ((l.dropWhile isWsChar).reverse.dropWhile isWsChar).reverse

/-- Helper for `wordsOf`: accumulates the current (reversed) word. -/
def wordsGo (cur : List Char) : List Char → List (List Char)
  | [] => if cur.isEmpty then [] else [cur.reverse]
  | c :: rest =>
      if isWsChar c then
        if cur.isEmpty then wordsGo [] rest
        else cur.reverse :: wordsGo [] rest
      else wordsGo (c :: cur) rest

/-- Embeds `trimmed.split(/\s+/).filter((w) => w.length > 0)`: the maximal
runs of non-whitespace characters, in order. -/
def wordsOf (l : List Char) : List (List Char) :=
  wordsGo [] l

/-- Embeds `word.replace(/"/g, '""')`: double every embedded double quote. -/
def escapeQuotes : List Char → List Char
  | [] => []
  | c :: rest => (if c = '"' then ['"', '"'] else [c]) ++ escapeQuotes rest

/-- Wraps an escaped word in double quotes. -/
def quoteWord (w : List Char) : List Char :=
  '"' :: escapeQuotes w ++ ['"']

/-- Embeds the indexed `words.map((word, i) => ...)` of `prepareFts5Query`:
quote each word and append `*` exactly when `i` is the final index. -/
def quoteAll (total : Nat) (i : Nat) : List (List Char) → List (List Char)
  | [] => []
  | w :: rest =>
      (quoteWord w ++ (if i + 1 = total then ['*'] else [])) ::
        quoteAll total (i + 1) rest

/-- Embeds `quotedWords.join(' ')`. -/
def joinSpace : List (List Char) → List Char
  | [] => []
  | [w] => w
  | w :: rest => w ++ ' ' :: joinSpace rest

/-- Embeds `prepareFts5Query` of `db-impl.ts`: trim, bail out on empty,
split into words, quote each word, star the last, join with spaces. -/
def prepareFts5Query (input : String) : String :=
  let trimmed := trimChars input.toList
  if trimmed = [] then ""
  else
    let words := wordsOf trimmed
    if words = [] then ""
    else String.mk (joinSpace (quoteAll words.length 0 words))

/-- Spec-side transform of the word list: every word but the last is quoted
with no wildcard, the last word gets the trailing `*`. -/
def quoteAllSpec : List (List Char) → List (List Char)
  | [] => []
  | [w] => [quoteWord w ++ ['*']]
  | w :: r :: rs => quoteWord w :: quoteAllSpec (r :: rs)

/-- Query normalizer as the spec words it: return empty when the trimmed
input is empty, otherwise split the trimmed input on whitespace dropping
empty tokens, double embedded quotes, wrap each word in quotes, star only
the last word, and join with single spaces. -/
def prepareFts5QuerySpec (input : String) : String :=
  let trimmed := trimChars input.toList
  if trimmed = [] then ""
  else String.mk (joinSpace (quoteAllSpec (wordsOf trimmed)))

-- ── Data model (schema.ts) ───────────────────────────────────────

/-- Row of the `notes` table.  The schema declares `pinned` with default 0;
the engine never reads or writes it. -/
structure NoteRow where
  id : String
  title : String
  body : String
  has_links : Bool
  pinned : Bool
  created_at : String
  updated_at : String
deriving Repr, DecidableEq

/-- Row of the `tags` table (`id INTEGER PRIMARY KEY AUTOINCREMENT`,
`name TEXT NOT NULL UNIQUE`, `icon TEXT DEFAULT NULL`). -/
structure TagRow where
  id : Nat
  name : String
  icon : Option String
deriving Repr, DecidableEq

/-- Row of the `note_tags` junction table (compound primary key). -/
structure NoteTagRow where
  note_id : String
  tag_id : Nat
deriving Repr, DecidableEq

/-- Row of the `media` table. -/
structure MediaRow where
  id : String
  note_id : String
  mime_type : String
  filename : String
  created_at : String
deriving Repr, DecidableEq

/-- Database state after `SCHEMA_SQL` ran: the four tables in rowid
(insertion) order plus the AUTOINCREMENT sequence for tag ids. -/
structure DBState where
  notes : List NoteRow
  tags : List TagRow
  note_tags : List NoteTagRow
  media : List MediaRow
  nextTagId : Nat
deriving Repr, DecidableEq

/-- Freshly initialized database. -/
def emptyDB : DBState :=
  { notes := [], tags := [], note_tags := [], media := [], nextTagId := 1 }

-- ── Result types (types.ts, as produced by db-impl.ts) ───────────

/-- Projection `SELECT t.id, t.name` returned by `getTagsForNote`. -/
structure TagOut where
  id : Nat
  name : String
deriving Repr, DecidableEq

/-- Projection of a note row as built by `rowToNote`. -/
structure NoteOut where
  id : String
  title : String
  body : String
  has_links : Bool
  created_at : String
  updated_at : String
deriving Repr, DecidableEq

/-- Note together with its tags, as returned by the engine. -/
structure NoteWithTags where
  id : String
  title : String
  body : String
  has_links : Bool
  created_at : String
  updated_at : String
  tags : List TagOut
deriving Repr, DecidableEq

/-- Search hit: a note with tags plus the FTS5 `rank` value. -/
structure SearchHit where
  note : NoteWithTags
  rank : Int
deriving Repr, DecidableEq

/-- Typed failures thrown by `db-impl.ts` plus the SQLite constraint
failure a statement can raise. -/
inductive EngineErr where
  | noteNotFound (id : String)
  | tagNotFound (name : String)
  | constraintViolation
deriving Repr, DecidableEq

/-- Argument record of `createNote`. -/
structure CreateNoteInput where
  title : Option String
  body : String
deriving Repr, DecidableEq

/-- Argument record of `updateNote`. -/
structure UpdateNoteInput where
  id : String
  title : Option String
  body : Option String
deriving Repr, DecidableEq

-- ── SQL helpers ──────────────────────────────────────────────────

/-- Codepoint comparison on characters. -/
def charLtB (a b : Char) : Bool := decide (a.toNat < b.toNat)

/-- Lexicographic order on character lists. -/
def charListLt : List Char → List Char → Bool
  | [], [] => false
  | [], _ :: _ => true
  | _ :: _, [] => false
  | a :: as, b :: bs => if a = b then charListLt as bs else charLtB a b

/-- SQLite BINARY collation on TEXT values, modelled as lexicographic
comparison of the codepoint sequences. -/
def strLt (a b : String) : Bool := charListLt a.toList b.toList

/-- Stable insertion into a sorted list: `a` goes before the first element
it strictly precedes, hence after any element it ties with. -/
def insertSorted (bef : α → α → Bool) (a : α) : List α → List α
  | [] => [a]
  | b :: rest => if bef a b then a :: b :: rest else b :: insertSorted bef a rest

/-- Stable sort used to model `ORDER BY` (ties keep rowid order). -/
def sortWith (bef : α → α → Bool) (l : List α) : List α :=
  l.foldl (fun acc a => insertSorted bef a acc) []

/-- Comparator of `ORDER BY updated_at DESC` (SQLite BINARY collation on
the timestamp strings). -/
def laterUpdated (a b : NoteRow) : Bool :=
  strLt b.updated_at a.updated_at

/-- Comparator of `ORDER BY name` on tags. -/
def nameBefore (a b : TagRow) : Bool :=
  strLt a.name b.name

/-- Comparator of `ORDER BY rank` (ascending; FTS5 ranks are negative,
lower is a better match). -/
def rankBefore (a b : NoteRow × Int) : Bool :=
  decide (a.2 < b.2)

/-- Duplicate check over tag names, modelling the UNIQUE constraint. -/
def hasDupNames : List TagRow → Bool
  | [] => false
  | t :: rest => rest.any (fun u => u.name == t.name) || hasDupNames rest

-- ── Engine operations (db-impl.ts) ───────────────────────────────

/-- Embeds `rowToNote`. -/
def rowToNote (r : NoteRow) : NoteOut :=
  { id := r.id, title := r.title, body := r.body, has_links := r.has_links,
    created_at := r.created_at, updated_at := r.updated_at }

/-- Embeds `getTagsForNote`: join `note_tags` with `tags` on the note id,
selecting tag id and name. -/
def getTagsForNote (st : DBState) (noteId : String) : List TagOut :=
  (st.note_tags.filter (fun nt => nt.note_id == noteId)).filterMap
    (fun nt => (st.tags.find? (fun t => t.id == nt.tag_id)).map
      (fun t => ({ id := t.id, name := t.name } : TagOut)))

/-- Embeds `withTags`. -/
def withTags (st : DBState) (n : NoteOut) : NoteWithTags :=
  { id := n.id, title := n.title, body := n.body, has_links := n.has_links,
    created_at := n.created_at, updated_at := n.updated_at,
    tags := getTagsForNote st n.id }

/-- Embeds `getNote`: `SELECT * FROM notes WHERE id = ?` (primary key, so
the first matching row), with tags attached. -/
def getNote (st : DBState) (id : String) : Option NoteWithTags :=
  (st.notes.find? (fun r => r.id == id)).map (fun r => withTags st (rowToNote r))

/-- Embeds `getAllNotes`: `SELECT * FROM notes ORDER BY updated_at DESC`. -/
def getAllNotes (st : DBState) : List NoteWithTags :=
  (sortWith laterUpdated st.notes).map (fun r => withTags st (rowToNote r))

/-- Embeds `createNote`: compute `has_links`, insert the row (the id is the
injected generator's output, the timestamp the injected clock's; a duplicate
id would violate the primary key). -/
def createNote (id ts : String) (input : CreateNoteInput) (st : DBState) :
    DBState × Except EngineErr NoteWithTags :=
  if st.notes.any (fun n => n.id == id) then (st, .error .constraintViolation)
  else
    let title := input.title.getD ""
    let hasLinks := containsUrl input.body
    let row : NoteRow :=
      { id := id, title := title, body := input.body, has_links := hasLinks,
        pinned := false, created_at := ts, updated_at := ts }
    let st' := { st with notes := st.notes ++ [row] }
    (st', .ok (withTags st'
      { id := id, title := title, body := input.body, has_links := hasLinks,
        created_at := ts, updated_at := ts }))

/-- Embeds `updateNote`: look the note up, fail with `Note not found` when
absent, otherwise overwrite title/body/has_links/updated_at. -/
def updateNote (ts : String) (input : UpdateNoteInput) (st : DBState) :
    DBState × Except EngineErr NoteWithTags :=
  match getNote st input.id with
  | none => (st, .error (.noteNotFound input.id))
  | some existing =>
      let title := input.title.getD existing.title
      let body := input.body.getD existing.body
      let hasLinks := containsUrl body
      let st' := { st with notes := st.notes.map (fun n =>
        if n.id == input.id then
          { n with title := title, body := body, has_links := hasLinks,
                   updated_at := ts }
        else n) }
      (st', .ok (withTags st'
        { id := existing.id, title := title, body := body,
          has_links := hasLinks, created_at := existing.created_at,
          updated_at := ts }))

/-- Embeds `deleteNote`: `DELETE FROM notes WHERE id = ?`; when a row is
deleted the `ON DELETE CASCADE` clauses remove its `note_tags` and `media`
rows.  Deleting an absent id matches no row and is not an error. -/
def deleteNote (id : String) (st : DBState) : DBState :=
  if st.notes.any (fun n => n.id == id) then
    { st with
      notes := st.notes.filter (fun n => !(n.id == id)),
      note_tags := st.note_tags.filter (fun nt => !(nt.note_id == id)),
      media := st.media.filter (fun m => !(m.note_id == id)) }
  else st

/-- Embeds `deleteNotes`: delete each id in order. -/
def deleteNotes (ids : List String) (st : DBState) : DBState :=
  ids.foldl (fun s i => deleteNote i s) st

/-- Embeds `addTag`: check the note exists, `INSERT OR IGNORE` the tag
(fresh AUTOINCREMENT id when inserted), look its id up, `INSERT OR IGNORE`
the association, and return the note re-read. -/
def addTag (noteId tagName : String) (st : DBState) :
    DBState × Except EngineErr NoteWithTags :=
  match getNote st noteId with
  | none => (st, .error (.noteNotFound noteId))
  | some _ =>
      let st1 :=
        if st.tags.any (fun t => t.name == tagName) then st
        else { st with
               tags := st.tags ++ [{ id := st.nextTagId, name := tagName, icon := none }],
               nextTagId := st.nextTagId + 1 }
      match st1.tags.find? (fun t => t.name == tagName) with
      | none => (st1, .error (.tagNotFound tagName))
      | some tagRow =>
          let st2 :=
            if st1.note_tags.any (fun nt => nt.note_id == noteId && nt.tag_id == tagRow.id) then st1
            else { st1 with note_tags := st1.note_tags ++ [{ note_id := noteId, tag_id := tagRow.id }] }
          match getNote st2 noteId with
          | none => (st2, .error (.noteNotFound noteId))
          | some note => (st2, .ok note)

/-- Embeds `removeTag`: delete the association whose tag id the scalar
subquery on the name yields (no tag: the subquery is NULL and nothing
matches), then return the note re-read. -/
def removeTag (noteId tagName : String) (st : DBState) :
    DBState × Except EngineErr NoteWithTags :=
  let st1 :=
    match st.tags.find? (fun t => t.name == tagName) with
    | none => st
    | some t =>
        { st with note_tags :=
            st.note_tags.filter (fun nt => !(nt.note_id == noteId && nt.tag_id == t.id)) }
  match getNote st1 noteId with
  | none => (st1, .error (.noteNotFound noteId))
  | some note => (st1, .ok note)

/-- Embeds `renameTag`: the single statement
`UPDATE tags SET name = ? WHERE name = ?`.  When no row matches the
statement is a no-op; when the updated table would break the UNIQUE
constraint on `name`, SQLite aborts the statement and the state is
unchanged. -/
def renameTag (oldName newName : String) (st : DBState) :
    DBState × Except EngineErr Unit :=
  if st.tags.any (fun t => t.name == oldName) then
    let updated := st.tags.map (fun t =>
      if t.name == oldName then { t with name := newName } else t)
    if hasDupNames updated then (st, .error .constraintViolation)
    else ({ st with tags := updated }, .ok ())
  else (st, .ok ())

/-- Embeds `getAllTags`: `SELECT id, name FROM tags ORDER BY name`. -/
def getAllTags (st : DBState) : List TagOut :=
  (sortWith nameBefore st.tags).map (fun t => { id := t.id, name := t.name })

/-- Embeds `search`.  The FTS5 virtual table is abstracted into the
`ftsMatch` parameter producing the matched rows with their ranks (the part
of the query SQLite's tokenizer owns); the engine-side behavior — the empty
normalized-query guard, the join back to `notes` and `ORDER BY rank` — is
explicit. -/
def search (ftsMatch : String → DBState → List (NoteRow × Int))
    (query : String) (st : DBState) : List SearchHit :=
  let fq := prepareFts5Query query
  if fq = "" then []
  else (sortWith rankBefore (ftsMatch fq st)).map (fun p =>
    { note := withTags st (rowToNote p.1), rank := p.2 })

-- ── Operation sequences (reachable states) ───────────────────────

/-- Mutating engine operations, for reasoning about every reachable
store state. -/
inductive Op where
  | create (id ts : String) (title : Option String) (body : String)
  | update (ts id : String) (title : Option String) (body : Option String)
  | delete (id : String)
  | deleteMany (ids : List String)
  | tagAdd (noteId name : String)
  | tagRemove (noteId name : String)
  | tagRename (oldName newName : String)
deriving Repr, DecidableEq

/-- State reached after one operation (a failing operation leaves the state
it failed in). -/
def stepOp (o : Op) (st : DBState) : DBState :=
  match o with
  | .create id ts title body => (createNote id ts { title := title, body := body } st).1
  | .update ts id title body => (updateNote ts { id := id, title := title, body := body } st).1
  | .delete id => deleteNote id st
  | .deleteMany ids => deleteNotes ids st
  | .tagAdd noteId name => (addTag noteId name st).1
  | .tagRemove noteId name => (removeTag noteId name st).1
  | .tagRename a b => (renameTag a b st).1

/-- State reached from the empty store by a sequence of operations. -/
def runOps (ops : List Op) : DBState :=
  ops.foldl (fun s o => stepOp o s) emptyDB

-- ── Concrete instances used by the theorems below ────────────────

/-- Bare note row with the given id, timestamp and pinned flag. -/
def plainRow (i ts : String) (p : Bool) : NoteRow :=
  { id := i, title := "", body := "", has_links := false, pinned := p,
    created_at := ts, updated_at := ts }

/-- Merge scenario of the tag tests: n1 and n2 tagged `old`, n3 tagged
`existing` (reached from the empty store by engine operations). -/
def stC1 : DBState :=
  runOps [.create "n1" "t0" none "first", .create "n2" "t1" none "second",
          .create "n3" "t2" none "third", .tagAdd "n1" "old",
          .tagAdd "n2" "old", .tagAdd "n3" "existing"]

/-- Store with notes A, B, C created in that order (increasing
`updated_at`) where B carries `pinned = 1`. -/
def stC2 : DBState :=
  { emptyDB with notes := [plainRow "A" "t0" false, plainRow "B" "t1" true,
                           plainRow "C" "t2" false] }

/-- Store with two notes for the search-ordering evaluation. -/
def stC5 : DBState :=
  { emptyDB with notes := [plainRow "b1" "t0" false, plainRow "b2" "t1" false] }

/-- Match oracle for the search-ordering evaluation: both notes match, the
second with the better (lower) rank. -/
def ftsC5 : String → DBState → List (NoteRow × Int) :=
  fun _ _ => [(plainRow "b1" "t0" false, -1), (plainRow "b2" "t1" false, -2)]

/-- Single-note store for the update witness. -/
def stW6 : DBState := { emptyDB with notes := [plainRow "n1" "t0" false] }

/-- The note of `stW6` as `getNote` returns it. -/
def nwt6 : NoteWithTags :=
  { id := "n1", title := "", body := "", has_links := false,
    created_at := "t0", updated_at := "t0", tags := [] }

/-- Update input touching only the title. -/
def inpW6 : UpdateNoteInput := { id := "n1", title := some "New", body := none }

/-- Store with one note, one tag association and one media row, for the
delete-cascade witness. -/
def stW7 : DBState :=
  { notes := [plainRow "n1" "t0" false],
    tags := [⟨1, "x", none⟩],
    note_tags := [⟨"n1", 1⟩],
    media := [⟨"m1", "n1", "image/png", "m1.png", "t0"⟩],
    nextTagId := 2 }

/-- Single-note store for the addTag idempotence witness. -/
def stW8 : DBState := { emptyDB with notes := [plainRow "n1" "t0" false] }

-- ── Theorems ─────────────────────────────────────────────────────

/-- Claim C1 (refuting evaluation): with tags `old` and `existing` both
present as distinct rows, `renameTag "old" "existing"` does not merge —
the single UPDATE would duplicate the UNIQUE name, the statement fails
with a constraint violation, the state is unchanged, the `old` row
survives, and note n1 keeps tag `old` instead of gaining `existing`. -/
theorem c1_renameTag_no_merge :
    renameTag "old" "existing" stC1 = (stC1, .error .constraintViolation) ∧
    stC1.tags = [⟨1, "old", none⟩, ⟨2, "existing", none⟩] ∧
    getTagsForNote stC1 "n1" = [⟨1, "old"⟩] := by decide

/-- Claim C2 (refuting evaluation): `getAllNotes` orders purely by
`updated_at` descending and ignores the `pinned` column entirely; with
notes A, B, C created in that order and B pinned, it returns [C, B, A]
instead of the pinned-first [B, C, A]. -/
theorem c2_getAllNotes_ignores_pinned :
    stC2.notes.map NoteRow.pinned = [false, true, false] ∧
    (getAllNotes stC2).map (fun n => n.id) = ["C", "B", "A"] ∧
    (getAllNotes stC2).map (fun n => n.id) ≠ ["B", "C", "A"] := by decide

/-- Claim C5: a query whose normalized form is empty yields the empty
result set, and the engine orders results purely by rank ascending (there
is no archived column and no archived-last grouping): with two matches of
ranks -1 and -2 the better-ranked note comes first, regardless of any
other attribute. -/
theorem c5_search_empty_and_rank_order :
    (∀ f q st, prepareFts5Query q = "" → search f q st = []) ∧
    (search ftsC5 "beta" stC5).map (fun r => (r.note.id, r.rank)) =
      [("b2", -2), ("b1", -1)] := by
  constructor
  · intro f q st h
    simp [search, h]
  · decide

/-- Claim C5 witness: the whitespace-only query normalizes to empty and
returns no results. -/
theorem c5_search_witness :
    prepareFts5Query "   " = "" ∧ search ftsC5 "   " stC5 = [] :=
  ⟨by decide, c5_search_empty_and_rank_order.1 ftsC5 "   " stC5 (by decide)⟩

/-- Claim C10: `addTag` checks that the note exists before the tag
get-or-create, so a call on a missing note id fails with NotFound and
leaves the store completely unchanged — no tag row, no association. -/
theorem c10_addTag_note_checked_first (st : DBState) (n t : String)
    (h : getNote st n = none) :
    addTag n t st = (st, .error (.noteNotFound n)) := by
  simp [addTag, h]

/-- Claim C10 witness: adding a tag to a missing note on the empty store
fails with NotFound and leaves the store empty. -/
theorem c10_witness :
    getNote emptyDB "x" = none ∧
    addTag "x" "y" emptyDB = (emptyDB, .error (.noteNotFound "x")) :=
  ⟨by decide, c10_addTag_note_checked_first emptyDB "x" "y" (by decide)⟩

/-- Indexed quoting agrees with the last-word-marks-the-star formulation
whenever the total equals the remaining length plus the next index. -/
theorem quoteAll_eq_spec : ∀ (ws : List (List Char)) (i : Nat),
    quoteAll (i + ws.length) i ws = quoteAllSpec ws
  | [], _ => rfl
  | [w], i => by simp [quoteAll, quoteAllSpec]
  | w :: r :: rs, i => by
    have ih := quoteAll_eq_spec (r :: rs) (i + 1)
    rw [quoteAll, quoteAllSpec]
    rw [if_neg (by simp only [List.length_cons]; omega)]
    rw [show i + (w :: r :: rs).length = (i + 1) + (r :: rs).length by
      simp only [List.length_cons]; omega]
    rw [ih]
    simp

/-- Claim C4: the FTS5 query normalizer of the engine agrees, on every
input string, with the spec's description — empty result on
whitespace-only input, otherwise the whitespace-split words each
quote-escaped and wrapped, the trailing wildcard on the last word only,
joined by single spaces. -/
theorem c4_prepareFts5Query_matches_spec (s : String) :
    prepareFts5Query s = prepareFts5QuerySpec s := by
  simp only [prepareFts5Query, prepareFts5QuerySpec]
  by_cases h : trimChars s.toList = []
  · rw [if_pos h, if_pos h]
  · rw [if_neg h, if_neg h]
    cases hw : wordsOf (trimChars s.toList) with
    | nil => rfl
    | cons w rest =>
      rw [if_neg (by simp)]
      have hq := quoteAll_eq_spec (w :: rest) 0
      rw [Nat.zero_add] at hq
      rw [hq]

/-- Duplicate-name check agrees with name-list Nodup. -/
theorem hasDupNames_false_iff (l : List TagRow) :
    hasDupNames l = false ↔ (l.map TagRow.name).Nodup := by
  induction l with
  | nil => simp [hasDupNames]
  | cons t rest ih =>
    simp only [hasDupNames, Bool.or_eq_false_iff, List.map_cons, List.nodup_cons, ih,
      List.any_eq_false, beq_iff_eq, List.mem_map]
    constructor
    · rintro ⟨h1, h2⟩
      exact ⟨fun ⟨u, hu, he⟩ => h1 u hu he, h2⟩
    · rintro ⟨h1, h2⟩
      exact ⟨fun u hu he => h1 ⟨u, hu, he⟩, h2⟩

/-- Note creation leaves the tags table untouched. -/
theorem tags_createNote (id ts : String) (inp : CreateNoteInput) (st : DBState) :
    (createNote id ts inp st).1.tags = st.tags := by
  unfold createNote; split <;> rfl

/-- Note update leaves the tags table untouched. -/
theorem tags_updateNote (ts : String) (inp : UpdateNoteInput) (st : DBState) :
    (updateNote ts inp st).1.tags = st.tags := by
  unfold updateNote
  cases getNote st inp.id <;> rfl

/-- Note deletion leaves the tags table untouched (cascades only remove associations and media). -/
theorem tags_deleteNote (i : String) (st : DBState) :
    (deleteNote i st).tags = st.tags := by
  unfold deleteNote; split <;> rfl

/-- Batch deletion leaves the tags table untouched. -/
theorem tags_deleteNotes (ids : List String) : ∀ st : DBState,
    (deleteNotes ids st).tags = st.tags := by
  induction ids with
  | nil => intro st; rfl
  | cons i rest ih =>
    intro st
    have h1 : deleteNotes (i :: rest) st = deleteNotes rest (deleteNote i st) := rfl
    rw [h1, ih, tags_deleteNote]

/-- Removing an association leaves the tags table untouched. -/
theorem tags_removeTag (n t : String) (st : DBState) :
    (removeTag n t st).1.tags = st.tags := by
  unfold removeTag
  cases st.tags.find? (fun tg => tg.name == t) <;> dsimp only <;> split <;> rfl

/-- State of the tags table after addTag: unchanged, or (when the name was absent) extended by one freshly numbered row of that name. -/
theorem addTag_tags (n t : String) (st : DBState) :
    (addTag n t st).1.tags = st.tags ∨
    ((st.tags.any (fun tg => tg.name == t)) = false ∧
     (addTag n t st).1.tags =
       st.tags ++ [{ id := st.nextTagId, name := t, icon := none }]) := by
  unfold addTag
  cases getNote st n with
  | none => exact Or.inl rfl
  | some nw =>
    dsimp only
    by_cases ht : (st.tags.any fun tg => tg.name == t) = true
    · rw [if_pos ht]
      cases (st.tags.find? fun tg => tg.name == t) with
      | none => exact Or.inl rfl
      | some tagRow =>
        dsimp only
        split <;> split <;> exact Or.inl rfl
    · rw [if_neg ht]
      have ht0 : (st.tags.any fun tg => tg.name == t) = false := Bool.eq_false_iff.mpr ht
      cases (({ st with
          tags := st.tags ++ [{ id := st.nextTagId, name := t, icon := none }],
          nextTagId := st.nextTagId + 1 } : DBState).tags.find? fun tg => tg.name == t) with
      | none => exact Or.inr ⟨ht0, rfl⟩
      | some tagRow =>
        dsimp only
        split <;> split <;> exact Or.inr ⟨ht0, rfl⟩

/-- addTag preserves uniqueness of tag names. -/
theorem namesNodup_addTag (n t : String) (st : DBState)
    (h : (st.tags.map TagRow.name).Nodup) :
    ((addTag n t st).1.tags.map TagRow.name).Nodup := by
  rcases addTag_tags n t st with heq | ⟨hany, heq⟩
  · rw [heq]; exact h
  · rw [heq]
    have hnotin : t ∉ st.tags.map TagRow.name := by
      intro hmem
      obtain ⟨u, hu, he⟩ := List.mem_map.mp hmem
      have := List.any_eq_false.mp hany u hu
      simp [he] at this
    rw [List.map_append]
    simp only [List.map_cons, List.map_nil]
    rw [List.nodup_append]
    refine ⟨h, List.nodup_singleton t, ?_⟩
    intro a ha hb
    simp only [List.mem_singleton] at hb
    subst hb
    exact hnotin ha
/-- renameTag preserves uniqueness of tag names: the UNIQUE gate rejects any update that would duplicate one. -/
theorem namesNodup_renameTag (a b : String) (st : DBState)
    (h : (st.tags.map TagRow.name).Nodup) :
    ((renameTag a b st).1.tags.map TagRow.name).Nodup := by
  unfold renameTag
  by_cases hm : st.tags.any (fun t => t.name == a) = true
  · rw [if_pos hm]
    by_cases hd : hasDupNames (st.tags.map fun t =>
        if t.name == a then { t with name := b } else t) = true
    · rw [if_pos hd]; exact h
    · rw [if_neg hd]
      exact (hasDupNames_false_iff _).mp (Bool.eq_false_iff.mpr hd)
  · rw [if_neg hm]; exact h

/-- Every engine operation preserves uniqueness of tag names. -/
theorem namesNodup_stepOp (o : Op) (st : DBState)
    (h : (st.tags.map TagRow.name).Nodup) :
    ((stepOp o st).tags.map TagRow.name).Nodup := by
  cases o with
  | create id ts title body => rw [stepOp, tags_createNote]; exact h
  | update ts id title body => rw [stepOp, tags_updateNote]; exact h
  | delete id => rw [stepOp, tags_deleteNote]; exact h
  | deleteMany ids => rw [stepOp, tags_deleteNotes]; exact h
  | tagAdd noteId name => exact namesNodup_addTag noteId name st h
  | tagRemove noteId name => rw [stepOp, tags_removeTag]; exact h
  | tagRename x y => exact namesNodup_renameTag x y st h

/-- Folding operations preserves uniqueness of tag names. -/
theorem namesNodup_foldl (ops : List Op) : ∀ st : DBState,
    (st.tags.map TagRow.name).Nodup →
    (((ops.foldl (fun s o => stepOp o s) st).tags).map TagRow.name).Nodup := by
  induction ops with
  | nil => intro st h; exact h
  | cons o rest ih => intro st h; exact ih _ (namesNodup_stepOp o st h)


/-- Claim C3: in every store state reachable from the empty store by any
sequence of engine operations — including renames whose target name exists
— no two rows of the tags table share a name; an operation that would
create a duplicate fails leaving the table unchanged. -/
theorem c3_tag_names_unique (ops : List Op) :
    (((runOps ops).tags).map TagRow.name).Nodup :=
  namesNodup_foldl ops emptyDB (by simp [emptyDB])

/-- Membership is preserved by sorted insertion. -/
theorem mem_insertSorted (bef : α → α → Bool) (a x : α) (l : List α) :
    x ∈ insertSorted bef a l ↔ x = a ∨ x ∈ l := by
  induction l with
  | nil => simp [insertSorted]
  | cons b rest ih =>
    simp only [insertSorted]
    split
    · simp [List.mem_cons]
    · simp only [List.mem_cons, ih]
      tauto

/-- Membership is preserved by the ORDER BY model. -/
theorem mem_sortWith (bef : α → α → Bool) (l : List α) (x : α) :
    x ∈ sortWith bef l ↔ x ∈ l := by
  have hgen : ∀ (ll : List α) (acc : List α),
      x ∈ ll.foldl (fun ac a => insertSorted bef a ac) acc ↔ x ∈ acc ∨ x ∈ ll := by
    intro ll
    induction ll with
    | nil => intro acc; simp
    | cons a rest ih =>
      intro acc
      simp only [List.foldl_cons, ih, mem_insertSorted, List.mem_cons]
      tauto
  have := hgen l []
  simp only [List.not_mem_nil, false_or] at this
  exact (sortWith.eq_1 bef l ▸ this)

/-- After deleteNote no remaining notes row carries the deleted id. -/
theorem deleteNote_no_id (i : String) (st : DBState) :
    ∀ n ∈ (deleteNote i st).notes, (n.id == i) = false := by
  unfold deleteNote
  split
  · intro n hn
    have := List.of_mem_filter hn
    simpa using this
  · rename_i hany
    have h0 : st.notes.any (fun n => n.id == i) = false := Bool.eq_false_iff.mpr hany
    intro n hn
    exact Bool.eq_false_iff.mpr (List.any_eq_false.mp h0 n hn)

/-- Claim C7: after `deleteNote id` the note is absent (`getNote` yields
none and it no longer appears in `getAllNotes`), the cascade removes its
tag associations and media rows, deleting a non-existent id is a no-op
rather than an error, and `deleteNotes []` changes nothing. -/
theorem c7_deleteNote (st : DBState) (i : String) :
    (getNote (deleteNote i st) i = none) ∧
    (∀ n ∈ getAllNotes (deleteNote i st), n.id ≠ i) ∧
    (st.notes.any (fun n => n.id == i) = true →
      (∀ nt ∈ (deleteNote i st).note_tags, nt.note_id ≠ i) ∧
      (∀ m ∈ (deleteNote i st).media, m.note_id ≠ i)) ∧
    (getNote st i = none → deleteNote i st = st) ∧
    (deleteNotes [] st = st) := by
  refine ⟨?_, ?_, ?_, ?_, rfl⟩
  · have hfind : (deleteNote i st).notes.find? (fun r => r.id == i) = none :=
      List.find?_eq_none.mpr (fun r hr => by
        simp [deleteNote_no_id i st r hr])
    simp [getNote, hfind]
  · intro n hn
    simp only [getAllNotes, List.mem_map] at hn
    obtain ⟨r, hr, hEq⟩ := hn
    have hr' : r ∈ (deleteNote i st).notes := (mem_sortWith _ _ _).mp hr
    have : (r.id == i) = false := deleteNote_no_id i st r hr'
    have hne : r.id ≠ i := by simpa using this
    subst hEq
    simpa [withTags, rowToNote] using hne
  · intro hany
    rw [deleteNote, if_pos hany]
    constructor
    · intro nt hnt
      have := List.of_mem_filter hnt
      simpa using this
    · intro m hm
      have := List.of_mem_filter hm
      simpa using this
  · intro hnone
    have hfind : st.notes.find? (fun r => r.id == i) = none := by
      simp only [getNote] at hnone
      cases hf : st.notes.find? (fun r => r.id == i) with
      | none => rfl
      | some r => rw [hf] at hnone; simp at hnone
    have hany : st.notes.any (fun n => n.id == i) = false :=
      List.any_eq_false.mpr (List.find?_eq_none.mp hfind)
    rw [deleteNote, if_neg (by simp [hany])]

/-- Claim C7 witness: deleting the existing note of a one-note store removes its association and media rows, and deleting a missing id leaves the store untouched. -/
theorem c7_witness :
    (stW7.notes.any (fun n => n.id == "n1") = true ∧
      (∀ nt ∈ (deleteNote "n1" stW7).note_tags, nt.note_id ≠ "n1") ∧
      (∀ m ∈ (deleteNote "n1" stW7).media, m.note_id ≠ "n1")) ∧
    (getNote stW7 "zz" = none ∧ deleteNote "zz" stW7 = stW7) :=
  ⟨⟨by decide, (c7_deleteNote stW7 "n1").2.2.1 (by decide)⟩,
   ⟨by decide, (c7_deleteNote stW7 "zz").2.2.2.1 (by decide)⟩⟩

/-- find? commutes with a map that preserves the predicate. -/
theorem find?_map_pres (p : α → Bool) (f : α → α) (hf : ∀ a, p (f a) = p a) :
    ∀ l : List α, (l.map f).find? p = (l.find? p).map f := by
  intro l
  induction l with
  | nil => rfl
  | cons a rest ih =>
    by_cases h : p a = true
    · rw [List.map_cons, List.find?_cons_of_pos _ (by rw [hf]; exact h),
        List.find?_cons_of_pos _ h, Option.map_some']
    · have h0 : p a = false := Bool.eq_false_iff.mpr h
      rw [List.map_cons, List.find?_cons_of_neg _ (by rw [hf]; simp [h0]),
        List.find?_cons_of_neg _ (by simp [h0]), ih]

/-- Claim C6: `updateNote` fails with NotFound when the id is absent;
otherwise omitted fields are preserved from the existing row, `has_links`
is recomputed from the effective body, and `updated_at` is set to the new
timestamp — also on a title-only change — both in the returned note and in
the stored row. -/
theorem c6_updateNote (st : DBState) (ts : String) (input : UpdateNoteInput) :
    (getNote st input.id = none →
      updateNote ts input st = (st, .error (.noteNotFound input.id))) ∧
    (∀ existing, getNote st input.id = some existing →
      ∃ res, (updateNote ts input st).2 = .ok res ∧
        res.title = input.title.getD existing.title ∧
        res.body = input.body.getD existing.body ∧
        res.has_links = containsUrl (input.body.getD existing.body) ∧
        res.updated_at = ts ∧
        res.created_at = existing.created_at ∧
        getNote (updateNote ts input st).1 input.id = some res) := by
  constructor
  · intro h
    simp only [updateNote, h]
  · intro existing hg
    have hg' := hg
    simp only [getNote] at hg'
    cases hf : st.notes.find? (fun r => r.id == input.id) with
    | none => rw [hf] at hg'; simp at hg'
    | some r =>
      rw [hf] at hg'
      rw [Option.map_some'] at hg'
      have hex : existing = withTags st (rowToNote r) := (Option.some.inj hg').symm
      have hpr : (r.id == input.id) = true := by
        have := List.find?_some hf
        simpa using this
      simp only [updateNote, hg]
      refine ⟨_, rfl, rfl, rfl, rfl, rfl, rfl, ?_⟩
      simp only [getNote]
      rw [find?_map_pres _ _ (fun n => by by_cases hn : (n.id == input.id) = true <;> simp [hn])]
      rw [hf, Option.map_some', Option.map_some']
      congr 1
      simp only [withTags, rowToNote, hpr, if_true]
      have h1 : existing.id = r.id := by rw [hex]; rfl
      have h2 : existing.title = r.title := by rw [hex]; rfl
      have h3 : existing.body = r.body := by rw [hex]; rfl
      have h4 : existing.created_at = r.created_at := by rw [hex]; rfl
      rw [h1, h2, h3, h4]

/-- Claim C6 witness: a title-only update of the one-note store keeps the body, recomputes has_links and refreshes updated_at. -/
theorem c6_witness :
    ∃ res, (updateNote "t9" inpW6 stW6).2 = .ok res ∧
      res.title = inpW6.title.getD nwt6.title ∧
      res.body = inpW6.body.getD nwt6.body ∧
      res.has_links = containsUrl (inpW6.body.getD nwt6.body) ∧
      res.updated_at = "t9" ∧
      res.created_at = nwt6.created_at ∧
      getNote (updateNote "t9" inpW6 stW6).1 inpW6.id = some res :=
  (c6_updateNote stW6 "t9" inpW6).2 nwt6 (by decide)

/-- find? skips a block in which every element fails the predicate. -/
theorem find?_append_of_none (p : α → Bool) :
    ∀ l₁ l₂ : List α, (∀ x ∈ l₁, p x = false) → (l₁ ++ l₂).find? p = l₂.find? p := by
  intro l₁
  induction l₁ with
  | nil => intro l₂ _; rfl
  | cons a rest ih =>
    intro l₂ hall
    rw [List.cons_append, List.find?_cons_of_neg _ (by simp [hall a (by simp)]),
        ih l₂ (fun x hx => hall x (by simp [hx]))]

/-- addTag is a state no-op when the note exists, the tag row exists and the association is already present. -/
theorem addTag_noop (st : DBState) (n t : String) (r : NoteRow)
    (hr : st.notes.find? (fun x => x.id == n) = some r)
    (tagRow : TagRow)
    (hfind : st.tags.find? (fun tg => tg.name == t) = some tagRow)
    (hpair : st.note_tags.any (fun nt => nt.note_id == n && nt.tag_id == tagRow.id) = true) :
    addTag n t st = (st, .ok (withTags st (rowToNote r))) := by
  have hg : getNote st n = some (withTags st (rowToNote r)) := by simp [getNote, hr]
  have hany : st.tags.any (fun tg => tg.name == t) = true := by
    have hmem := List.mem_of_find?_eq_some hfind
    have hp : (tagRow.name == t) = true := by simpa using List.find?_some hfind
    exact List.any_eq_true.mpr ⟨tagRow, hmem, hp⟩
  simp only [addTag, hg, hany, if_true, hfind, hpair]

/-- Successful addTag: notes unchanged, the tag row findable and the association present afterwards. -/
theorem addTag_post (st : DBState) (n t : String) (r : NoteRow)
    (hr : st.notes.find? (fun x => x.id == n) = some r) :
    ∃ st2 tagRow,
      addTag n t st = (st2, .ok (withTags st2 (rowToNote r))) ∧
      st2.notes = st.notes ∧
      st2.tags.find? (fun tg => tg.name == t) = some tagRow ∧
      st2.note_tags.any (fun nt => nt.note_id == n && nt.tag_id == tagRow.id) = true := by
  have hg : getNote st n = some (withTags st (rowToNote r)) := by simp [getNote, hr]
  simp only [addTag, hg]
  by_cases ht : st.tags.any (fun tg => tg.name == t) = true
  · rw [if_pos ht]
    obtain ⟨tagRow, hfind⟩ : ∃ tr, st.tags.find? (fun tg => tg.name == t) = some tr := by
      cases hf : st.tags.find? (fun tg => tg.name == t) with
      | some tr => exact ⟨tr, rfl⟩
      | none =>
        obtain ⟨u, hu, hp⟩ := List.any_eq_true.mp ht
        have := List.find?_eq_none.mp hf u hu
        simp [hp] at this
    rw [hfind]
    dsimp only
    by_cases hnt : st.note_tags.any (fun nt => nt.note_id == n && nt.tag_id == tagRow.id) = true
    · rw [if_pos hnt, hg]
      exact ⟨st, tagRow, rfl, rfl, hfind, hnt⟩
    · rw [if_neg hnt]
      have hg2 : getNote { st with
          note_tags := st.note_tags ++ [{ note_id := n, tag_id := tagRow.id }] } n =
          some (withTags { st with
            note_tags := st.note_tags ++ [{ note_id := n, tag_id := tagRow.id }] }
            (rowToNote r)) := by
        simp [getNote, hr]
      rw [hg2]
      refine ⟨_, tagRow, rfl, rfl, hfind, ?_⟩
      apply List.any_eq_true.mpr
      exact ⟨⟨n, tagRow.id⟩, by simp, by simp⟩
  · rw [if_neg ht]
    have hallfail : ∀ u ∈ st.tags, (fun tg => tg.name == t) u = false := by
      intro u hu
      have := List.any_eq_false.mp (Bool.eq_false_iff.mpr ht) u hu
      simpa using this
    have hfind1 : (st.tags ++ [({ id := st.nextTagId, name := t, icon := none } : TagRow)]).find?
        (fun tg => tg.name == t) = some { id := st.nextTagId, name := t, icon := none } := by
      rw [find?_append_of_none _ _ _ hallfail]
      simp [List.find?]
    rw [show ({ st with
        tags := st.tags ++ [{ id := st.nextTagId, name := t, icon := none }],
        nextTagId := st.nextTagId + 1 } : DBState).tags.find? (fun tg => tg.name == t) =
        some { id := st.nextTagId, name := t, icon := none } from hfind1]
    dsimp only
    by_cases hnt : st.note_tags.any
        (fun nt => nt.note_id == n && nt.tag_id == st.nextTagId) = true
    · rw [if_pos hnt]
      have hg2 : getNote { st with
          tags := st.tags ++ [{ id := st.nextTagId, name := t, icon := none }],
          nextTagId := st.nextTagId + 1 } n =
          some (withTags { st with
            tags := st.tags ++ [{ id := st.nextTagId, name := t, icon := none }],
            nextTagId := st.nextTagId + 1 } (rowToNote r)) := by
        simp [getNote, hr]
      rw [hg2]
      exact ⟨_, { id := st.nextTagId, name := t, icon := none }, rfl, rfl, hfind1, hnt⟩
    · rw [if_neg hnt]
      have hg2 : getNote { st with
          tags := st.tags ++ [{ id := st.nextTagId, name := t, icon := none }],
          note_tags := st.note_tags ++ [{ note_id := n, tag_id := st.nextTagId }],
          nextTagId := st.nextTagId + 1 } n =
          some (withTags { st with
            tags := st.tags ++ [{ id := st.nextTagId, name := t, icon := none }],
            note_tags := st.note_tags ++ [{ note_id := n, tag_id := st.nextTagId }],
            nextTagId := st.nextTagId + 1 } (rowToNote r)) := by
        simp [getNote, hr]
      rw [hg2]
      refine ⟨_, { id := st.nextTagId, name := t, icon := none }, rfl, rfl, hfind1, ?_⟩
      apply List.any_eq_true.mpr
      exact ⟨⟨n, st.nextTagId⟩, by simp, by simp⟩

/-- Claim C8: for an existing note, `addTag` is idempotent — the second
identical call returns exactly the first call's state and tag list,
creating no duplicate row or association and reordering nothing. -/
theorem c8_addTag_idempotent (st : DBState) (noteId tagName : String)
    (h : getNote st noteId ≠ none) :
    addTag noteId tagName ((addTag noteId tagName st).1) = addTag noteId tagName st := by
  obtain ⟨r, hr⟩ : ∃ r, st.notes.find? (fun x => x.id == noteId) = some r := by
    cases hf : st.notes.find? (fun x => x.id == noteId) with
    | some v => exact ⟨v, rfl⟩
    | none => exact absurd (by simp [getNote, hf]) h
  obtain ⟨st2, tagRow, heq, hnotes, hfind2, hany2⟩ := addTag_post st noteId tagName r hr
  rw [heq]
  have hr2 : st2.notes.find? (fun x => x.id == noteId) = some r := by rw [hnotes]; exact hr
  exact addTag_noop st2 noteId tagName r hr2 tagRow hfind2 hany2

/-- Claim C8 witness: tagging the one-note store twice equals tagging it once. -/
theorem c8_witness :
    getNote stW8 "n1" ≠ none ∧
    addTag "n1" "x" ((addTag "n1" "x" stW8).1) = addTag "n1" "x" stW8 :=
  ⟨by decide, c8_addTag_idempotent stW8 "n1" "x" (by decide)⟩

/-- Taking the length of the first block of an append returns it. -/
theorem take_len_append (l₁ l₂ : List α) : (l₁ ++ l₂).take l₁.length = l₁ := by
  induction l₁ with
  | nil => rfl
  | cons a rest ih => simp [ih]

/-- takeWhile and dropWhile split a list. -/
theorem take_drop_while (p : α → Bool) : ∀ l : List α,
    l.takeWhile p ++ l.dropWhile p = l := by
  intro l
  induction l with
  | nil => rfl
  | cons a rest ih =>
    by_cases h : p a = true
    · rw [List.takeWhile_cons_of_pos h, List.dropWhile_cons_of_pos h, List.cons_append, ih]
    · rw [List.takeWhile_cons_of_neg (by simp [h]), List.dropWhile_cons_of_neg (by simp [h])]
      rfl

/-- Head of a dropWhile result fails the predicate. -/
theorem dropWhile_head_false (p : α → Bool) : ∀ (l : List α) (c : α) (t : List α),
    l.dropWhile p = c :: t → p c = false := by
  intro l
  induction l with
  | nil => intro c t h; simp at h
  | cons a rest ih =>
    intro c t h
    by_cases hp : p a = true
    · rw [List.dropWhile_cons_of_pos hp] at h
      exact ih c t h
    · rw [List.dropWhile_cons_of_neg (by simp [hp])] at h
      cases h
      exact Bool.eq_false_iff.mpr hp

/-- dropWhile skips a block whose elements all satisfy the predicate. -/
theorem dropWhile_append_all (p : α → Bool) : ∀ l₁ l₂ : List α,
    (∀ x ∈ l₁, p x = true) → (l₁ ++ l₂).dropWhile p = l₂.dropWhile p := by
  intro l₁
  induction l₁ with
  | nil => intro l₂ _; rfl
  | cons a rest ih =>
    intro l₂ hall
    rw [List.cons_append, List.dropWhile_cons_of_pos (hall a (by simp))]
    exact ih l₂ (fun x hx => hall x (by simp [hx]))

/-- dropWhile stops inside the first block when it leaves a nonempty rest. -/
theorem dropWhile_append_ne (p : α → Bool) : ∀ (l₁ l₂ : List α) (c : α) (t : List α),
    l₁.dropWhile p = c :: t → (l₁ ++ l₂).dropWhile p = c :: t ++ l₂ := by
  intro l₁
  induction l₁ with
  | nil => intro l₂ c t h; simp at h
  | cons a rest ih =>
    intro l₂ c t h
    by_cases hp : p a = true
    · rw [List.dropWhile_cons_of_pos hp] at h
      rw [List.cons_append, List.dropWhile_cons_of_pos hp]
      exact ih l₂ c t h
    · rw [List.dropWhile_cons_of_neg (by simp [hp])] at h
      cases h
      rw [List.cons_append, List.dropWhile_cons_of_neg (by simp [hp])]

/-- cleanUrl splits its input into the result and a trailing run of punctuation. -/
theorem clean_split (m : List Char) :
    ∃ r, m = cleanUrl m ++ r ∧ ∀ c ∈ r, isPunct c = true := by
  refine ⟨(m.reverse.takeWhile isPunct).reverse, ?_, ?_⟩
  · have h1 : m = (m.reverse.takeWhile isPunct ++ m.reverse.dropWhile isPunct).reverse := by
      rw [take_drop_while, List.reverse_reverse]
    rw [List.reverse_append] at h1
    exact h1
  · intro c hc
    rw [List.mem_reverse] at hc
    exact List.mem_takeWhile_imp hc

/-- The last character surviving cleanUrl is never punctuation. -/
theorem clean_last_not_punct (m : List Char) (c : Char)
    (h : (cleanUrl m).getLast? = some c) : isPunct c = false := by
  unfold cleanUrl at h
  rw [List.getLast?_reverse] at h
  cases hd : m.reverse.dropWhile isPunct with
  | nil => rw [hd] at h; simp at h
  | cons x xs =>
    rw [hd] at h
    simp only [List.head?_cons, Option.some.injEq] at h
    subst h
    exact dropWhile_head_false isPunct m.reverse x xs hd

/-- cleanUrl never strips into the scheme: it distributes over the scheme, whose final slash is not punctuation. -/
theorem clean_scheme (sch body : List Char)
    (hs : sch = schemeHttps ∨ sch = schemeHttp) :
    cleanUrl (sch ++ body) = sch ++ cleanUrl body := by
  have hsch : sch.reverse.dropWhile isPunct = sch.reverse := by
    rcases hs with h | h <;> subst h <;> decide
  unfold cleanUrl
  rw [List.reverse_append]
  cases hd : body.reverse.dropWhile isPunct with
  | nil =>
    have hall : ∀ x ∈ body.reverse, isPunct x = true :=
      fun x hx => List.dropWhile_eq_nil_iff.mp hd x hx
    have h1 : (body.reverse ++ sch.reverse).dropWhile isPunct =
        sch.reverse.dropWhile isPunct :=
      dropWhile_append_all isPunct body.reverse sch.reverse hall
    rw [h1, hsch, List.reverse_reverse, List.reverse_nil, List.append_nil]
  | cons c t =>
    rw [dropWhile_append_ne isPunct _ _ _ _ hd]
    rw [List.reverse_append, List.reverse_reverse]

/-- Shape of a single regex match: scheme plus a nonempty non-whitespace body. -/
theorem tryUrl_shape (l m rest : List Char) (h : tryUrl l = some (m, rest)) :
    ∃ sch body, (sch = schemeHttps ∨ sch = schemeHttp) ∧ m = sch ++ body ∧
      body ≠ [] ∧ ∀ c ∈ body, isWsChar c = false := by
  unfold tryUrl at h
  cases hs : schemeSplit? l with
  | none => rw [hs] at h; simp at h
  | some p =>
    obtain ⟨sch, rest0⟩ := p
    rw [hs] at h
    dsimp only at h
    by_cases hb : (rest0.takeWhile fun c => !(isWsChar c)).isEmpty = true
    · rw [if_pos hb] at h; simp at h
    · rw [if_neg hb] at h
      simp only [Option.some.injEq, Prod.mk.injEq] at h
      have hschs : sch = schemeHttps ∨ sch = schemeHttp := by
        unfold schemeSplit? at hs
        split at hs
        · simp only [Option.some.injEq, Prod.mk.injEq] at hs
          exact Or.inl hs.1.symm
        · simp only [Option.some.injEq, Prod.mk.injEq] at hs
          exact Or.inr hs.1.symm
        · simp at hs
      refine ⟨sch, rest0.takeWhile (fun c => !(isWsChar c)), hschs, h.1.symm, ?_, ?_⟩
      · intro hnil
        rw [hnil] at hb
        simp at hb
      · intro c hc
        have := List.mem_takeWhile_imp hc
        simpa using this

/-- Every collected match is a scheme plus a nonempty non-whitespace body. -/
theorem scanUrlsGo_shape : ∀ (fuel : Nat) (l m : List Char), m ∈ scanUrlsGo fuel l →
    ∃ sch body, (sch = schemeHttps ∨ sch = schemeHttp) ∧ m = sch ++ body ∧
      body ≠ [] ∧ ∀ c ∈ body, isWsChar c = false := by
  intro fuel
  induction fuel with
  | zero => intro l m h; simp [scanUrlsGo] at h
  | succ fu ih =>
    intro l m h
    cases l with
    | nil => simp [scanUrlsGo] at h
    | cons c rest =>
      rw [scanUrlsGo] at h
      cases htry : tryUrl (c :: rest) with
      | none =>
        rw [htry] at h
        exact ih rest m h
      | some p =>
        obtain ⟨mm, rest'⟩ := p
        rw [htry] at h
        simp only [List.mem_cons] at h
        rcases h with h | h
        · subst h
          exact tryUrl_shape _ _ _ htry
        · exact ih rest' m h

/-- Claim C9: `extractUrls` yields the empty sequence on empty input;
every returned string is a regex match of `https?://` plus non-whitespace
with the trailing punctuation run stripped (so it still starts with its
scheme, contains no whitespace, and never ends in a punctuation
character); matches are returned in order of first appearance with
duplicates preserved, as the concrete three-URL evaluation shows. -/
theorem c9_extractUrls :
    extractUrls "" = [] ∧
    (∀ t u, u ∈ extractUrls t →
      (u.toList.take 8 = schemeHttps ∨ u.toList.take 7 = schemeHttp) ∧
      (∀ c ∈ u.toList, isWsChar c = false) ∧
      (∀ c, u.toList.getLast? = some c → isPunct c = false)) ∧
    extractUrls "a https://x.com, then http://y.org) and https://x.com." =
      ["https://x.com", "http://y.org", "https://x.com"] := by
  refine ⟨rfl, ?_, by decide⟩
  intro t u hu
  by_cases ht : t = ""
  · subst ht; simp [extractUrls] at hu
  · rw [extractUrls, if_neg ht] at hu
    obtain ⟨m, hm, hum⟩ := List.mem_map.mp hu
    obtain ⟨sch, body, hsch, hmEq, hbne, hbws⟩ :=
      scanUrlsGo_shape t.toList.length t.toList m hm
    have hul : u.toList = cleanUrl m := by rw [← hum]; rfl
    have hclean : cleanUrl m = sch ++ cleanUrl body := by
      rw [hmEq]; exact clean_scheme sch body hsch
    refine ⟨?_, ?_, ?_⟩
    · rcases hsch with h | h
      · left
        rw [hul, hclean, h]
        exact take_len_append schemeHttps (cleanUrl body)
      · right
        rw [hul, hclean, h]
        exact take_len_append schemeHttp (cleanUrl body)
    · intro c hc
      rw [hul, hclean] at hc
      rcases List.mem_append.mp hc with h | h
      · rcases hsch with hs2 | hs2 <;> subst hs2 <;> fin_cases h <;> decide
      · obtain ⟨r, hsplit, _⟩ := clean_split body
        have : c ∈ body := by rw [hsplit]; exact List.mem_append.mpr (Or.inl h)
        exact hbws c this
    · intro c hc
      rw [hul] at hc
      exact clean_last_not_punct m c hc

/-- Claim C9 witness: the URL extracted from a sample text starts with its scheme, has no whitespace and no trailing punctuation. -/
theorem c9_witness :
    "https://a.b" ∈ extractUrls "x https://a.b. y" ∧
    (("https://a.b".toList.take 8 = schemeHttps ∨
      "https://a.b".toList.take 7 = schemeHttp) ∧
     (∀ c ∈ "https://a.b".toList, isWsChar c = false) ∧
     (∀ c, "https://a.b".toList.getLast? = some c → isPunct c = false)) :=
  ⟨by decide, c9_extractUrls.2.1 "x https://a.b. y" "https://a.b" (by decide)⟩
